import Mathlib

/-!
Verification of the incremental per-line tokenization and virtualization core
in `src/editor.js` (Phase 2).  The JavaScript is embedded shallowly:

* a line is a `List Char` (a JS string with no newline);
* the regex-driven tokenizer `tokenizeLine` is embedded as a left-to-right
  scanner that, at each position, tries the four regex alternatives of
  `tokenRegex` in order (string, number, `true`/`false`/`null` with word
  boundaries, punctuation); the regex alternatives are deterministic once
  spelled out, so each is a first-order matcher on the suffix;
* the scanner carries fuel (one unit per scanned position); fuel
  `length + 1` is always sufficient because every step consumes at least one
  character, so the out-of-fuel branch is unreachable from `rawTokens`;
* `findChangedRange`, `retokenizeRange` (a JS `Array.splice`), and the token
  cache update of `syncFromInput` are embedded as pure functions on lists;
* `computeVisibleRange` works on `ℚ` pixel quantities (JS numbers) with the
  code's constant `RENDER_BUFFER = 8` and the line height as a parameter
  (the code reads it from CSS, falling back to 28).
-/

namespace Editor

/-- Token kinds produced by `tokenizeLine` in `src/editor.js`
("plain", "string", "key", "number", "boolean", "null", "punctuation"). -/
inductive TokType where
  | plain
  | string
  | key
  | number
  | boolean
  | nullLit
  | punctuation
deriving DecidableEq, Repr

/-- A token `{type, text}` as pushed by `tokenizeLine`. -/
structure Token where
  type : TokType
  text : List Char
deriving DecidableEq, Repr

/-- JS regex `.`: any character except a line terminator. -/
def regexDot (c : Char) : Bool :=
  !(c = '\n' || c = '\r' || c = '\u2028' || c = '\u2029')

/-- JS regex `\w`: `[A-Za-z0-9_]`. -/
def isWordChar (c : Char) : Bool :=
  c.isAlpha || c.isDigit || c = '_'

/-- JS regex `\s` (whitespace class). -/
def jsWhitespace (c : Char) : Bool :=
  c = '\t' || c = '\n' || c = '\x0b' || c = '\x0c' || c = '\r' || c = ' ' ||
  c = '\u00a0' || c = '\u1680' || ('\u2000' ≤ c && c ≤ '\u200a') ||
  c = '\u2028' || c = '\u2029' || c = '\u202f' || c = '\u205f' ||
  c = '\u3000' || c = '\ufeff'

/-- Body of regex alternative 1, `"(?:\\.|[^"\\])*"`, after the opening
quote: returns the body (without the closing quote) and the rest after the
closing quote.  The starred group is deterministic: at `\` only `\\.`
applies, at `"` the star stops, otherwise only `[^"\\]` applies; if the
maximal scan does not end on `"`, backtracking also fails (removing star
items only re-exposes non-quote characters), so the alternative fails. -/
def stringBody : List Char → Option (List Char × List Char)
  | [] => none
  | c :: rest =>
    if c = '"' then some ([], rest)
    else if c = '\\' then
      match rest with
      | [] => none
      | d :: rest2 =>
        if regexDot d then
          match stringBody rest2 with
          | some (b, r) => some (c :: d :: b, r)
          | none => none
        else none
    else
      match stringBody rest with
      | some (b, r) => some (c :: b, r)
      | none => none

/-- Regex alternative 1 at the current position: a terminated JSON string. -/
def matchString : List Char → Option (List Char × List Char)
  | [] => none
  | c :: rest =>
    if c = '"' then
      match stringBody rest with
      | some (b, r) => some ('"' :: (b ++ ['"']), r)
      | none => none
    else none

/-- `-?` of regex alternative 2. -/
def optMinus (cs : List Char) : List Char × List Char :=
  match cs with
  | c :: rest => if c = '-' then ([c], rest) else ([], cs)
  | [] => ([], cs)

/-- Greedy `\d*` (used where the regex has `\d+`; emptiness is checked by
the caller). -/
def takeDigits (cs : List Char) : List Char × List Char :=
  (cs.takeWhile Char.isDigit, cs.dropWhile Char.isDigit)

/-- `(?:\.\d+)?` of regex alternative 2: taken only when a dot is followed
by at least one digit. -/
def optFrac (cs : List Char) : List Char × List Char :=
  match cs with
  | c :: rest =>
    if c = '.' then
      let p := takeDigits rest
      if p.1.isEmpty then ([], cs) else (c :: p.1, p.2)
    else ([], cs)
  | [] => ([], cs)

/-- `(?:[eE][+-]?\d+)?` of regex alternative 2: taken only when the
exponent marker (and optional sign) is followed by at least one digit. -/
def optExp (cs : List Char) : List Char × List Char :=
  match cs with
  | c :: rest =>
    if c = 'e' ∨ c = 'E' then
      let sgn : List Char × List Char :=
        match rest with
        | s :: rest2 => if s = '+' ∨ s = '-' then ([s], rest2) else ([], rest)
        | [] => ([], rest)
      let p := takeDigits sgn.2
      if p.1.isEmpty then ([], cs) else (c :: (sgn.1 ++ p.1), p.2)
    else ([], cs)
  | [] => ([], cs)

/-- Regex alternative 2 at the current position:
`-?\d+(?:\.\d+)?(?:[eE][+-]?\d+)?`. -/
def matchNumber (cs : List Char) : Option (List Char × List Char) :=
  let sg := optMinus cs
  let ds := takeDigits sg.2
  if ds.1.isEmpty then none
  else
    let fr := optFrac ds.2
    let ex := optExp fr.2
    some (sg.1 ++ ds.1 ++ fr.1 ++ ex.1, ex.2)

/-- Consume the word `w` from the front of the input, if present. -/
def dropWord : List Char → List Char → Option (List Char)
  | [], cs => some cs
  | _ :: _, [] => none
  | a :: w, c :: cs => if c = a then dropWord w cs else none

/-- `\b` before a literal starting with a word character. -/
def boundaryBefore : Option Char → Bool
  | none => true
  | some c => !isWordChar c

/-- `\b` after a literal ending with a word character. -/
def boundaryAfter : List Char → Bool
  | [] => true
  | c :: _ => !isWordChar c

/-- One branch of regex alternative 3: the literal word `w`
followed by a word boundary. -/
def tryWord (ty : TokType) (w : List Char) (cs : List Char) :
    Option (TokType × List Char × List Char) :=
  match dropWord w cs with
  | some rest => if boundaryAfter rest then some (ty, w, rest) else none
  | none => none

/-- Regex alternative 3 at the current position: `\b(true|false|null)\b`;
`prev` is the character just before the current position. -/
def matchLiteral (prev : Option Char) (cs : List Char) :
    Option (TokType × List Char × List Char) :=
  if boundaryBefore prev then
    match tryWord .boolean ('t' :: 'r' :: 'u' :: 'e' :: []) cs with
    | some res => some res
    | none =>
      match tryWord .boolean ('f' :: 'a' :: 'l' :: 's' :: 'e' :: []) cs with
      | some res => some res
      | none => tryWord .nullLit ('n' :: 'u' :: 'l' :: 'l' :: []) cs
  else none

/-- Regex alternative 4 at the current position: `[{}\[\]:,]`. -/
def matchPunct : List Char → Option (Char × List Char)
  | [] => none
  | c :: rest =>
    if c = '{' ∨ c = '}' ∨ c = '[' ∨ c = ']' ∨ c = ':' ∨ c = ',' then
      some (c, rest)
    else none

/-- All four alternatives of `tokenRegex` at the current position, tried
in the regex's order (JS alternation is leftmost-first). -/
def matchAt (prev : Option Char) (cs : List Char) :
    Option (TokType × List Char × List Char) :=
  match matchString cs with
  | some (t, r) => some (.string, t, r)
  | none =>
    match matchNumber cs with
    | some (t, r) => some (.number, t, r)
    | none =>
      match matchLiteral prev cs with
      | some res => some res
      | none =>
        match matchPunct cs with
        | some (c, r) => some (.punctuation, [c], r)
        | none => none

/-- Flush the pending run of unmatched characters (held reversed in `acc`)
as one `plain` token, as `tokenizeLine` does for the gap before a match. -/
def flushPlain (acc : List Char) : List Token :=
  if acc = [] then [] else [⟨.plain, acc.reverse⟩]

/-- The `tokenRegex.exec` loop of `tokenizeLine`: scan left to right; at
each position try `matchAt`; on a match, flush the pending plain run, emit
the matched token and continue after it; otherwise the character joins the
plain run.  `prev` is the character before the current position (for `\b`).
Fuel decreases once per position; `rawTokens` supplies enough fuel that the
fuel-0 branch (which flushes the remainder as plain text) is unreachable. -/
def scanAux : Nat → Option Char → List Char → List Char → List Token
  | 0, _, acc, cs => flushPlain acc ++ (if cs.isEmpty then [] else [⟨.plain, cs⟩])
  | fuel + 1, prev, acc, cs =>
    match cs with
    | [] => flushPlain acc
    | c :: rest =>
      match matchAt prev (c :: rest) with
      | some (ty, text, rem) =>
        flushPlain acc ++ ⟨ty, text⟩ :: scanAux fuel text.getLast? [] rem
      | none => scanAux fuel (some c) (c :: acc) rest

/-- The flat token sequence of `tokenizeLine`, before the key-detection
pass. -/
def rawTokens (line : List Char) : List Token :=
  scanAux (line.length + 1) none [] line

/-- The look-ahead of the key-detection pass: skip whitespace-only `plain`
tokens, then require a `:` punctuation token (the `while`/`if` after the
scan loop in `tokenizeLine`). -/
def colonAfterWs : List Token → Bool
  | [] => false
  | t :: rest =>
    if t.type = .plain ∧ (t.text.all jsWhitespace) = true then colonAfterWs rest
    else t.type = .punctuation ∧ t.text = [':']

/-- The key-detection pass (`for (let i = 0; i < tokens.length - 1; i++)`):
re-classify a `string` token at index `i` as `key` when the look-ahead from
`i+1` finds a colon.  `toks` is the full token list (the loop reads only
indices `> i`, which the in-place mutation never touches, so the pass is
observationally pure). -/
def markKeysFrom (toks : List Token) : Nat → List Token → List Token
  | _, [] => []
  | i, t :: rest =>
    (if i + 1 < toks.length ∧ t.type = .string ∧ colonAfterWs (toks.drop (i + 1)) = true
      then ⟨.key, t.text⟩ else t) :: markKeysFrom toks (i + 1) rest

/-- `tokenizeLine` from `src/editor.js`: regex scan, then key detection. -/
def tokenizeLine (line : List Char) : List Token :=
  markKeysFrom (rawTokens line) 0 (rawTokens line)

/-- One sequential `String.replace` pass of `escapeHtml`. -/
def replaceChar (c : Char) (r : List Char) : List Char → List Char
  | [] => []
  | x :: xs => (if x = c then r else [x]) ++ replaceChar c r xs

/-- `escapeHtml`: replace `&`, then `<`, then `>`. -/
def escapeHtml (s : List Char) : List Char :=
  replaceChar '>' ('&' :: 'g' :: 't' :: ';' :: [])
    (replaceChar '<' ('&' :: 'l' :: 't' :: ';' :: [])
      (replaceChar '&' ('&' :: 'a' :: 'm' :: 'p' :: ';' :: []) s))

/-- The class-name string used for a token type in `tokensToHtml`. -/
def typeName : TokType → List Char
  | .plain => String.toList "plain"
  | .string => String.toList "string"
  | .key => String.toList "key"
  | .number => String.toList "number"
  | .boolean => String.toList "boolean"
  | .nullLit => String.toList "null"
  | .punctuation => String.toList "punctuation"

/-- HTML for one token, as produced inside `tokensToHtml`. -/
def tokenHtml (t : Token) : List Char :=
  if t.type = .plain then escapeHtml t.text
  else
    String.toList "<span class=\"token " ++ typeName t.type ++
      String.toList "\">" ++ escapeHtml t.text ++ String.toList "</span>"

/-- `tokensToHtml`: per-token HTML joined with the empty separator. -/
def tokensToHtml (ts : List Token) : List Char :=
  ts.foldr (fun t r => tokenHtml t ++ r) []

/-- The cache entry stored for one line:
`tokensToHtml(tokenizeLine(line))`. -/
def lineHtml (l : List Char) : List Char :=
  tokensToHtml (tokenizeLine l)

/-- Concatenation of the token texts, in order (for the round-trip
property). -/
def textConcat (ts : List Token) : List Char :=
  ts.foldr (fun t r => t.text ++ r) []

/-- JS `text.split("\n")` on a character list: always at least one piece,
trailing empty piece preserved. -/
def splitNL : List Char → List (List Char)
  | [] => [[]]
  | c :: rest =>
    if c = '\n' then [] :: splitNL rest
    else
      match splitNL rest with
      | l :: ls => (c :: l) :: ls
      | [] => [[c]]

/-- The forward scan of `findChangedRange`: length of the longest common
leading run of equal lines. -/
def commonStartLen : List (List Char) → List (List Char) → Nat
  | a :: as, b :: bs => if a = b then commonStartLen as bs + 1 else 0
  | _, _ => 0

/-- `{start, endOld, endNew}` (inclusive; the ends can be `start - 1`, and
`-1` on an empty side). -/
structure ChangeRange where
  start : Nat
  endOld : Int
  endNew : Int
deriving DecidableEq, Repr

/-- The backward scan of `findChangedRange`.  `eo`/`en` are the current
`endOld + 1` / `endNew + 1` (so they stay in `Nat`); the loop steps while
`endOld ≥ start`, `endNew ≥ start` and the indexed lines agree.  The fuel
is one per step; `findChangedRange` passes `old.length`, which suffices
because `eo` starts there and decreases by one per step, and at `eo = 0`
the guard is false anyway. -/
def suffixWalk (old new : List (List Char)) (start : Nat) :
    Nat → Nat → Nat → Nat × Nat
  | 0, eo, en => (eo, en)
  | fuel + 1, eo, en =>
    if start + 1 ≤ eo ∧ start + 1 ≤ en ∧ old.get? (eo - 1) = new.get? (en - 1)
      then suffixWalk old new start fuel (eo - 1) (en - 1)
    else (eo, en)

/-- `findChangedRange(oldLines, newLines)` from `src/editor.js`. -/
def findChangedRange (old new : List (List Char)) : Option ChangeRange :=
  if commonStartLen old new = old.length ∧ commonStartLen old new = new.length
    then none
  else
    some ⟨commonStartLen old new,
      ((suffixWalk old new (commonStartLen old new) old.length
          old.length new.length).1 : Int) - 1,
      ((suffixWalk old new (commonStartLen old new) old.length
          old.length new.length).2 : Int) - 1⟩

/-- JS `arr.splice(start, deleteCount, ...items)` as a pure function
(`start : ℕ` is already clamped on the left; `take`/`drop` clamp on the
right; a negative delete count deletes nothing). -/
def spliceJS {α : Type} (arr : List α) (start : Nat) (deleteCount : Int)
    (items : List α) : List α :=
  arr.take start ++ items ++ arr.drop (start + deleteCount.toNat)

/-- `retokenizeRange(newLines, start, endNew)`: tokenize
`newLines.slice(start, endNew + 1)` and splice the results over
`tokens.splice(start, endNew - start + 1, ...)`. -/
def retokenizeRange (tokens : List (List Char)) (newLines : List (List Char))
    (start : Nat) (endNew : Int) : List (List Char) :=
  let newToks := ((newLines.drop start).take (endNew + 1 - start).toNat).map lineHtml
  spliceJS tokens start (endNew - start + 1) newToks

/-- The token-cache effect of `syncFromInput`: diff, splice-retokenize the
changed range, then force the cache length to `newLines.length` (truncate
when too long, tokenize-and-append the missing tail when too short).  On
the no-change sentinel the cache is left alone. -/
def syncTokens (oldTokens oldLines newLines : List (List Char)) :
    List (List Char) :=
  match findChangedRange oldLines newLines with
  | none => oldTokens
  | some cr =>
    let t1 := retokenizeRange oldTokens newLines cr.start cr.endNew
    if newLines.length < t1.length then t1.take newLines.length
    else t1 ++ (newLines.drop t1.length).map lineHtml

/-- `RENDER_BUFFER = 8` from `src/editor.js`. -/
def RENDER_BUFFER : Nat := 8

/-- The `{first, last}` range of `computeVisibleRange`. -/
structure VisibleRange where
  first : Int
  last : Int
deriving DecidableEq, Repr

/-- `computeVisibleRange` from `src/editor.js`, with the line height as a
parameter (the code reads `--line-height-px` from CSS, falling back
to 28) and the scroll state as arguments. -/
def computeVisibleRange (lineHeight scrollTop viewportHeight : ℚ)
    (totalLines : Nat) : VisibleRange :=
  let first : Int := max 0 (⌊scrollTop / lineHeight⌋ - (RENDER_BUFFER : Int))
  let visibleCount : Int := ⌈viewportHeight / lineHeight⌉ + 2 * (RENDER_BUFFER : Int)
  { first := first
    last := min ((totalLines : Int) - 1) (first + visibleCount - 1) }

/-- Tail of a terminated quoted string after the opening quote: escaped
pairs or ordinary characters, then a closing quote ending the text.  (A
specification-side predicate, used to state that every `string`/`key`
token is a fully terminated string.) -/
def quotedTail : List Char → Bool
  | [] => false
  | c :: rest =>
    if c = '"' then rest.isEmpty
    else if c = '\\' then
      match rest with
      | [] => false
      | d :: rest2 => regexDot d && quotedTail rest2
    else quotedTail rest

/-- A fully terminated quoted string: opening quote, well-formed body,
closing quote, nothing after. -/
def isQuotedString (l : List Char) : Bool :=
  match l with
  | c :: rest => c = '"' && quotedTail rest
  | [] => false

/-! ### Matcher lemmas: each regex alternative consumes a leading segment -/

theorem stringBody_concat : ∀ (cs b r : List Char),
    stringBody cs = some (b, r) → b ++ '"' :: r = cs := by
  intro cs
  induction cs using stringBody.induct with
  | case1 =>
    intro b r h
    rw [stringBody.eq_def] at h
    simp at h
  | case2 rest2 =>
    intro b r h
    rw [stringBody.eq_def] at h
    simp at h
    obtain ⟨h1, h2⟩ := h
    subst h1; subst h2; simp
  | case3 _ =>
    intro b r h
    rw [stringBody.eq_def] at h
    simp at h
  | case4 d rest2 hdot b' r' hsb _ ih =>
    intro b r h
    rw [stringBody.eq_def] at h
    simp [hdot, hsb] at h
    obtain ⟨h1, h2⟩ := h
    subst h1; subst h2
    have hc := ih b' r' hsb
    simp [← hc]
  | case5 d rest2 hdot hsb _ _ =>
    intro b r h
    rw [stringBody.eq_def] at h
    simp [hdot, hsb] at h
  | case6 d rest2 hdot _ =>
    intro b r h
    rw [stringBody.eq_def] at h
    simp [hdot] at h
  | case7 d rest2 hd hb b' r' hsb ih =>
    intro b r h
    rw [stringBody.eq_def] at h
    simp [hd, hb, hsb] at h
    obtain ⟨h1, h2⟩ := h
    subst h1; subst h2
    have hc := ih b' r' hsb
    simp [← hc]
  | case8 d rest2 hd hb hsb _ =>
    intro b r h
    rw [stringBody.eq_def] at h
    simp [hd, hb, hsb] at h

theorem stringBody_quoted : ∀ (cs b r : List Char),
    stringBody cs = some (b, r) → quotedTail (b ++ ['"']) = true := by
  intro cs
  induction cs using stringBody.induct with
  | case1 =>
    intro b r h
    rw [stringBody.eq_def] at h
    simp at h
  | case2 rest2 =>
    intro b r h
    rw [stringBody.eq_def] at h
    simp at h
    obtain ⟨h1, _⟩ := h
    subst h1
    simp [quotedTail]
  | case3 _ =>
    intro b r h
    rw [stringBody.eq_def] at h
    simp at h
  | case4 d rest2 hdot b' r' hsb _ ih =>
    intro b r h
    rw [stringBody.eq_def] at h
    simp [hdot, hsb] at h
    obtain ⟨h1, _⟩ := h
    subst h1
    rw [quotedTail.eq_def]
    simp [quotedTail, hdot]
    exact ih b' r' hsb
  | case5 d rest2 hdot hsb _ _ =>
    intro b r h
    rw [stringBody.eq_def] at h
    simp [hdot, hsb] at h
  | case6 d rest2 hdot _ =>
    intro b r h
    rw [stringBody.eq_def] at h
    simp [hdot] at h
  | case7 d rest2 hd hb b' r' hsb ih =>
    intro b r h
    rw [stringBody.eq_def] at h
    simp [hd, hb, hsb] at h
    obtain ⟨h1, _⟩ := h
    subst h1
    rw [quotedTail.eq_def]
    simp [hd, hb]
    exact ih b' r' hsb
  | case8 d rest2 hd hb hsb _ =>
    intro b r h
    rw [stringBody.eq_def] at h
    simp [hd, hb, hsb] at h

theorem matchString_concat {cs t r : List Char}
    (h : matchString cs = some (t, r)) : t ++ r = cs := by
  match cs with
  | [] => rw [matchString.eq_def] at h; simp at h
  | c :: rest =>
    rw [matchString.eq_def] at h
    by_cases hc : c = '"'
    · subst hc
      simp only [if_pos rfl] at h
      cases hsb : stringBody rest with
      | none => rw [hsb] at h; simp at h
      | some p =>
        obtain ⟨b, r'⟩ := p
        rw [hsb] at h
        simp at h
        obtain ⟨h1, h2⟩ := h
        have hc := stringBody_concat rest b r' hsb
        rw [← h1, ← h2]
        simpa using hc
    · simp [hc] at h

theorem matchString_quoted {cs t r : List Char}
    (h : matchString cs = some (t, r)) : isQuotedString t = true := by
  match cs with
  | [] => rw [matchString.eq_def] at h; simp at h
  | c :: rest =>
    rw [matchString.eq_def] at h
    by_cases hc : c = '"'
    · subst hc
      simp only [if_pos rfl] at h
      cases hsb : stringBody rest with
      | none => rw [hsb] at h; simp at h
      | some p =>
        obtain ⟨b, r'⟩ := p
        rw [hsb] at h
        simp at h
        obtain ⟨h1, _⟩ := h
        have hq := stringBody_quoted rest b r' hsb
        rw [← h1]
        simpa [isQuotedString] using hq
    · simp [hc] at h

theorem matchString_ne {cs t r : List Char}
    (h : matchString cs = some (t, r)) : t ≠ [] := by
  match cs with
  | [] => rw [matchString.eq_def] at h; simp at h
  | c :: rest =>
    rw [matchString.eq_def] at h
    by_cases hc : c = '"'
    · subst hc
      simp only [if_pos rfl] at h
      cases hsb : stringBody rest with
      | none => rw [hsb] at h; simp at h
      | some p =>
        obtain ⟨b, r'⟩ := p
        rw [hsb] at h
        simp at h
        obtain ⟨h1, _⟩ := h
        rw [← h1]
        simp
    · simp [hc] at h

theorem optMinus_concat (cs : List Char) :
    (optMinus cs).1 ++ (optMinus cs).2 = cs := by
  unfold optMinus
  match cs with
  | [] => simp
  | c :: rest => by_cases hc : c = '-' <;> simp [hc]

theorem takeDigits_concat (cs : List Char) :
    (takeDigits cs).1 ++ (takeDigits cs).2 = cs := by
  simp [takeDigits]

theorem optFrac_concat (cs : List Char) :
    (optFrac cs).1 ++ (optFrac cs).2 = cs := by
  unfold optFrac
  match cs with
  | [] => simp
  | c :: rest =>
    by_cases hc : c = '.'
    · simp only [hc, if_pos rfl]
      by_cases he : (takeDigits rest).1.isEmpty
      · simp [he]
      · simp only [he, Bool.false_eq_true, if_false]
        simp [takeDigits_concat rest]
    · simp [hc]

theorem optExp_concat (cs : List Char) :
    (optExp cs).1 ++ (optExp cs).2 = cs := by
  unfold optExp
  match cs with
  | [] => simp
  | c :: rest =>
    by_cases hc : c = 'e' ∨ c = 'E'
    · simp only [if_pos hc]
      match rest with
      | [] =>
        by_cases he : (takeDigits ([] : List Char)).1.isEmpty
        · simp [he]
        · simp only [he, Bool.false_eq_true, if_false]
          simp [takeDigits_concat ([] : List Char)]
      | s :: rest2 =>
        by_cases hs : s = '+' ∨ s = '-'
        · simp only [if_pos hs]
          by_cases he : (takeDigits rest2).1.isEmpty
          · simp [he]
          · simp only [he, Bool.false_eq_true, if_false]
            simp [takeDigits_concat rest2]
        · simp only [if_neg hs]
          by_cases he : (takeDigits (s :: rest2)).1.isEmpty
          · simp [he]
          · simp only [he, Bool.false_eq_true, if_false]
            simp [takeDigits_concat (s :: rest2)]
    · simp [hc]

theorem matchNumber_concat {cs t r : List Char}
    (h : matchNumber cs = some (t, r)) : t ++ r = cs := by
  unfold matchNumber at h
  by_cases he : (takeDigits (optMinus cs).2).1.isEmpty
  · simp [he] at h
  · simp only [he, Bool.false_eq_true, if_false, Option.some.injEq, Prod.mk.injEq] at h
    obtain ⟨h1, h2⟩ := h
    rw [← h1, ← h2]
    calc ((optMinus cs).1 ++ (takeDigits (optMinus cs).2).1 ++
            (optFrac (takeDigits (optMinus cs).2).2).1 ++
            (optExp (optFrac (takeDigits (optMinus cs).2).2).2).1) ++
          (optExp (optFrac (takeDigits (optMinus cs).2).2).2).2
        = (optMinus cs).1 ++ ((takeDigits (optMinus cs).2).1 ++
            ((optFrac (takeDigits (optMinus cs).2).2).1 ++
              ((optExp (optFrac (takeDigits (optMinus cs).2).2).2).1 ++
                (optExp (optFrac (takeDigits (optMinus cs).2).2).2).2))) := by
          simp [List.append_assoc]
      _ = cs := by
          rw [optExp_concat, optFrac_concat, takeDigits_concat, optMinus_concat]

theorem matchNumber_ne {cs t r : List Char}
    (h : matchNumber cs = some (t, r)) : t ≠ [] := by
  unfold matchNumber at h
  by_cases he : (takeDigits (optMinus cs).2).1.isEmpty
  · simp [he] at h
  · simp only [he, Bool.false_eq_true, if_false, Option.some.injEq, Prod.mk.injEq] at h
    obtain ⟨h1, _⟩ := h
    rw [← h1]
    intro hnil
    simp at hnil
    exact he (by simp [hnil.2.1])

theorem dropWord_concat : ∀ (w cs rest : List Char),
    dropWord w cs = some rest → w ++ rest = cs := by
  intro w
  induction w with
  | nil => intro cs rest h; simp [dropWord] at h; simp [h]
  | cons a w ih =>
    intro cs rest h
    match cs with
    | [] => simp [dropWord] at h
    | c :: cs' =>
      rw [dropWord.eq_def] at h
      by_cases hc : c = a
      · simp only [hc, if_pos rfl] at h
        have := ih cs' rest h
        simp [hc, ← this]
      · simp [hc] at h

theorem tryWord_cases {ty : TokType} {w cs t r : List Char}
    (h : tryWord ty w cs = some (ty, t, r)) : t = w ∧ w ++ r = cs := by
  unfold tryWord at h
  cases hd : dropWord w cs with
  | none => rw [hd] at h; simp at h
  | some rest =>
    rw [hd] at h
    by_cases hb : boundaryAfter rest = true
    · simp only [hb, if_true, Option.some.injEq, Prod.mk.injEq] at h
      obtain ⟨_, h1, h2⟩ := h
      refine ⟨h1.symm, ?_⟩
      rw [← h2]
      exact dropWord_concat w cs rest hd
    · simp [hb] at h

theorem tryWord_ty {ty ty' : TokType} {w cs t r : List Char}
    (h : tryWord ty w cs = some (ty', t, r)) : ty' = ty ∧ t = w := by
  unfold tryWord at h
  cases hd : dropWord w cs with
  | none => rw [hd] at h; simp at h
  | some rest =>
    rw [hd] at h
    by_cases hb : boundaryAfter rest = true
    · simp only [hb, if_true, Option.some.injEq, Prod.mk.injEq] at h
      exact ⟨h.1.symm, h.2.1.symm⟩
    · simp [hb] at h

theorem tryWord_concat {ty ty' : TokType} {w cs t r : List Char}
    (h : tryWord ty w cs = some (ty', t, r)) : t ++ r = cs := by
  obtain ⟨hty, hw⟩ := tryWord_ty h
  subst hty
  subst hw
  exact (tryWord_cases h).2 ▸ (tryWord_cases h).2

theorem matchLiteral_cases {prev : Option Char} {cs t r : List Char}
    {ty : TokType} (h : matchLiteral prev cs = some (ty, t, r)) :
    (t ++ r = cs) ∧ (ty = .boolean ∨ ty = .nullLit) ∧ t ≠ [] := by
  unfold matchLiteral at h
  by_cases hbb : boundaryBefore prev = true
  · simp only [hbb, if_pos rfl] at h
    cases h1 : tryWord .boolean ('t' :: 'r' :: 'u' :: 'e' :: []) cs with
    | some res =>
      rw [h1] at h
      simp at h
      obtain ⟨ty', t', r'⟩ := res
      cases h
      obtain ⟨hty, hw⟩ := tryWord_ty h1
      refine ⟨tryWord_concat h1, Or.inl hty, ?_⟩
      rw [hw]; simp
    | none =>
      rw [h1] at h
      cases h2 : tryWord .boolean ('f' :: 'a' :: 'l' :: 's' :: 'e' :: []) cs with
      | some res =>
        rw [h2] at h
        simp at h
        obtain ⟨ty', t', r'⟩ := res
        cases h
        obtain ⟨hty, hw⟩ := tryWord_ty h2
        refine ⟨tryWord_concat h2, Or.inl hty, ?_⟩
        rw [hw]; simp
      | none =>
        rw [h2] at h
        simp at h
        obtain ⟨hty, hw⟩ := tryWord_ty h
        refine ⟨tryWord_concat h, Or.inr hty, ?_⟩
        rw [hw]; simp
  · simp [hbb] at h

theorem matchPunct_concat {cs r : List Char} {c : Char}
    (h : matchPunct cs = some (c, r)) : c :: r = cs := by
  match cs with
  | [] => simp [matchPunct] at h
  | d :: rest =>
    rw [matchPunct.eq_def] at h
    by_cases hd : d = '{' ∨ d = '}' ∨ d = '[' ∨ d = ']' ∨ d = ':' ∨ d = ','
    · simp only [if_pos hd, Option.some.injEq, Prod.mk.injEq] at h
      obtain ⟨h1, h2⟩ := h
      rw [← h1, ← h2]
    · simp [hd] at h

/-- `matchAt` consumes a leading segment of the input. -/
theorem matchAt_concat {prev : Option Char} {cs t r : List Char}
    {ty : TokType} (h : matchAt prev cs = some (ty, t, r)) : t ++ r = cs := by
  unfold matchAt at h
  cases h1 : matchString cs with
  | some p =>
    obtain ⟨t', r'⟩ := p
    rw [h1] at h
    simp at h
    obtain ⟨_, h2, h3⟩ := h
    rw [← h2, ← h3]
    exact matchString_concat h1
  | none =>
    rw [h1] at h
    cases h2 : matchNumber cs with
    | some p =>
      obtain ⟨t', r'⟩ := p
      rw [h2] at h
      simp at h
      obtain ⟨_, h3, h4⟩ := h
      rw [← h3, ← h4]
      exact matchNumber_concat h2
    | none =>
      rw [h2] at h
      cases h3 : matchLiteral prev cs with
      | some res =>
        obtain ⟨ty', t', r'⟩ := res
        rw [h3] at h
        simp at h
        obtain ⟨_, h4, h5⟩ := h
        rw [← h4, ← h5]
        exact (matchLiteral_cases h3).1
      | none =>
        rw [h3] at h
        cases h4 : matchPunct cs with
        | some p =>
          obtain ⟨c, r'⟩ := p
          rw [h4] at h
          simp at h
          obtain ⟨_, h5, h6⟩ := h
          rw [← h5, ← h6]
          simpa using matchPunct_concat h4
        | none => rw [h4] at h; simp at h

/-- `matchAt` never yields a `key` token (keys only arise in the
key-detection pass). -/
theorem matchAt_ne_key {prev : Option Char} {cs t r : List Char}
    {ty : TokType} (h : matchAt prev cs = some (ty, t, r)) : ty ≠ .key := by
  unfold matchAt at h
  cases h1 : matchString cs with
  | some p =>
    obtain ⟨t', r'⟩ := p
    rw [h1] at h
    simp at h
    obtain ⟨hty, _, _⟩ := h
    rw [← hty]
    intro hk
    exact TokType.noConfusion hk
  | none =>
    rw [h1] at h
    cases h2 : matchNumber cs with
    | some p =>
      obtain ⟨t', r'⟩ := p
      rw [h2] at h
      simp at h
      obtain ⟨hty, _, _⟩ := h
      rw [← hty]
      intro hk
      exact TokType.noConfusion hk
    | none =>
      rw [h2] at h
      cases h3 : matchLiteral prev cs with
      | some res =>
        obtain ⟨ty', t', r'⟩ := res
        rw [h3] at h
        simp at h
        obtain ⟨hty, _, _⟩ := h
        rw [← hty]
        rcases (matchLiteral_cases h3).2.1 with h' | h' <;> (rw [h']; intro hk; exact TokType.noConfusion hk)
      | none =>
        rw [h3] at h
        cases h4 : matchPunct cs with
        | some p =>
          obtain ⟨c, r'⟩ := p
          rw [h4] at h
          simp at h
          obtain ⟨hty, _, _⟩ := h
          rw [← hty]
          intro hk
          exact TokType.noConfusion hk
        | none => rw [h4] at h; simp at h

/-- A `string` token from `matchAt` is a fully terminated quoted string. -/
theorem matchAt_string_quoted {prev : Option Char} {cs t r : List Char}
    (h : matchAt prev cs = some (.string, t, r)) : isQuotedString t = true := by
  unfold matchAt at h
  cases h1 : matchString cs with
  | some p =>
    obtain ⟨t', r'⟩ := p
    rw [h1] at h
    simp at h
    obtain ⟨h2, _⟩ := h
    rw [← h2]
    exact matchString_quoted h1
  | none =>
    rw [h1] at h
    cases h2 : matchNumber cs with
    | some p =>
      obtain ⟨t', r'⟩ := p
      rw [h2] at h
      simp at h
    | none =>
      rw [h2] at h
      cases h3 : matchLiteral prev cs with
      | some res =>
        obtain ⟨ty', t', r'⟩ := res
        rw [h3] at h
        simp at h
        obtain ⟨hty, _, _⟩ := h
        rcases (matchLiteral_cases h3).2.1 with h' | h' <;> (rw [h'] at hty; exact absurd hty.symm (by intro hk; exact TokType.noConfusion hk))
      | none =>
        rw [h3] at h
        cases h4 : matchPunct cs with
        | some p =>
          obtain ⟨c, r'⟩ := p
          rw [h4] at h
          simp at h
        | none => rw [h4] at h; simp at h

/-! ### Scanner lemmas -/

theorem textConcat_nil : textConcat [] = [] := rfl

theorem textConcat_cons (t : Token) (l : List Token) :
    textConcat (t :: l) = t.text ++ textConcat l := rfl

theorem textConcat_append (a b : List Token) :
    textConcat (a ++ b) = textConcat a ++ textConcat b := by
  induction a with
  | nil => simp [textConcat_nil]
  | cons t a ih => simp [textConcat_cons, ih]

theorem textConcat_flushPlain (acc : List Char) :
    textConcat (flushPlain acc) = acc.reverse := by
  unfold flushPlain
  by_cases h : acc = [] <;> simp [h, textConcat_cons, textConcat_nil]

theorem flushPlain_mem {acc : List Char} {t : Token}
    (h : t ∈ flushPlain acc) : t.type = .plain := by
  unfold flushPlain at h
  by_cases ha : acc = []
  · simp [ha] at h
  · simp [ha] at h
    rw [h]

/-- The scan loop reproduces the input: pending plain run, then the rest. -/
theorem scanAux_textConcat : ∀ (fuel : Nat) (prev : Option Char) (acc cs : List Char),
    textConcat (scanAux fuel prev acc cs) = acc.reverse ++ cs := by
  intro fuel
  induction fuel with
  | zero =>
    intro prev acc cs
    rw [scanAux]
    cases cs with
    | nil => simp [textConcat_append, textConcat_flushPlain, textConcat_cons, textConcat_nil]
    | cons c rest =>
      simp [textConcat_append, textConcat_flushPlain, textConcat_cons, textConcat_nil]
  | succ fuel ih =>
    intro prev acc cs
    cases cs with
    | nil => rw [scanAux]; simp [textConcat_flushPlain]
    | cons c rest =>
      rw [scanAux]
      cases h : matchAt prev (c :: rest) with
      | some res =>
        obtain ⟨ty, text, rem⟩ := res
        simp only [textConcat_append, textConcat_flushPlain, textConcat_cons, ih]
        rw [← matchAt_concat h]
        simp
      | none =>
        rw [ih]
        simp

/-- Every `string` token produced by the scan loop is a terminated quoted
string. -/
theorem scanAux_string_quoted : ∀ (fuel : Nat) (prev : Option Char)
    (acc cs : List Char) (t : Token), t ∈ scanAux fuel prev acc cs →
    t.type = .string → isQuotedString t.text = true := by
  intro fuel
  induction fuel with
  | zero =>
    intro prev acc cs t hmem hty
    rw [scanAux] at hmem
    rcases List.mem_append.1 hmem with hm | hm
    · rw [flushPlain_mem hm] at hty; exact absurd hty (by intro h'; exact TokType.noConfusion h')
    · by_cases hcs : cs.isEmpty
      · simp [hcs] at hm
      · simp [hcs] at hm
        rw [hm] at hty
        exact absurd hty (by intro h'; exact TokType.noConfusion h')
  | succ fuel ih =>
    intro prev acc cs t hmem hty
    cases cs with
    | nil =>
      rw [scanAux] at hmem
      rw [flushPlain_mem hmem] at hty
      exact absurd hty (by intro h'; exact TokType.noConfusion h')
    | cons c rest =>
      rw [scanAux] at hmem
      cases h : matchAt prev (c :: rest) with
      | some res =>
        obtain ⟨ty, text, rem⟩ := res
        rw [h] at hmem
        rcases List.mem_append.1 hmem with hm | hm
        · rw [flushPlain_mem hm] at hty
          exact absurd hty (by intro h'; exact TokType.noConfusion h')
        · rcases List.mem_cons.1 hm with hm' | hm'
          · rw [hm'] at hty
            simp at hty
            rw [hty] at h
            have := matchAt_string_quoted h
            rw [hm']
            exact this
          · exact ih _ _ _ t hm' hty
      | none =>
        rw [h] at hmem
        exact ih _ _ _ t hmem hty

/-- The scan loop never produces a `key` token. -/
theorem scanAux_ne_key : ∀ (fuel : Nat) (prev : Option Char)
    (acc cs : List Char) (t : Token), t ∈ scanAux fuel prev acc cs →
    t.type ≠ .key := by
  intro fuel
  induction fuel with
  | zero =>
    intro prev acc cs t hmem
    rw [scanAux] at hmem
    rcases List.mem_append.1 hmem with hm | hm
    · rw [flushPlain_mem hm]; intro h'; exact TokType.noConfusion h'
    · by_cases hcs : cs.isEmpty
      · simp [hcs] at hm
      · simp [hcs] at hm
        rw [hm]
        intro h'; exact TokType.noConfusion h'
  | succ fuel ih =>
    intro prev acc cs t hmem
    cases cs with
    | nil =>
      rw [scanAux] at hmem
      rw [flushPlain_mem hmem]
      intro h'; exact TokType.noConfusion h'
    | cons c rest =>
      rw [scanAux] at hmem
      cases h : matchAt prev (c :: rest) with
      | some res =>
        obtain ⟨ty, text, rem⟩ := res
        rw [h] at hmem
        rcases List.mem_append.1 hmem with hm | hm
        · rw [flushPlain_mem hm]; intro h'; exact TokType.noConfusion h'
        · rcases List.mem_cons.1 hm with hm' | hm'
          · rw [hm']
            simpa using matchAt_ne_key h
          · exact ih _ _ _ t hm'
      | none =>
        rw [h] at hmem
        exact ih _ _ _ t hmem

/-! ### Key-detection pass lemmas -/

theorem markKeysFrom_textConcat (toks : List Token) : ∀ (l : List Token) (i : Nat),
    textConcat (markKeysFrom toks i l) = textConcat l := by
  intro l
  induction l with
  | nil => intro i; rw [markKeysFrom]
  | cons t rest ih =>
    intro i
    rw [markKeysFrom]
    rw [textConcat_cons, textConcat_cons, ih (i + 1)]
    by_cases hc : i + 1 < toks.length ∧ t.type = .string ∧
        colonAfterWs (toks.drop (i + 1)) = true
    · rw [if_pos hc]
    · rw [if_neg hc]

theorem markKeysFrom_get? (toks : List Token) : ∀ (l : List Token) (i j : Nat),
    (markKeysFrom toks i l).get? j = (l.get? j).map (fun t =>
      if i + j + 1 < toks.length ∧ t.type = .string ∧
          colonAfterWs (toks.drop (i + j + 1)) = true
        then ⟨.key, t.text⟩ else t) := by
  intro l
  induction l with
  | nil => intro i j; rw [markKeysFrom]; simp
  | cons t rest ih =>
    intro i j
    rw [markKeysFrom]
    cases j with
    | zero => simp
    | succ j =>
      simp only [List.get?_cons_succ]
      rw [ih (i + 1) j]
      have harith : i + 1 + j = i + (j + 1) := by omega
      rw [harith]

theorem markKeysFrom_mem (toks : List Token) : ∀ (l : List Token) (i : Nat)
    (t' : Token), t' ∈ markKeysFrom toks i l →
    ∃ t ∈ l, t'.text = t.text ∧ (t' = t ∨ t.type = .string) := by
  intro l
  induction l with
  | nil => intro i t' h; rw [markKeysFrom] at h; simp at h
  | cons t rest ih =>
    intro i t' h
    rw [markKeysFrom] at h
    rcases List.mem_cons.1 h with hm | hm
    · by_cases hc : i + 1 < toks.length ∧ t.type = .string ∧
          colonAfterWs (toks.drop (i + 1)) = true
      · rw [if_pos hc] at hm
        exact ⟨t, List.mem_cons_self t rest, by rw [hm], Or.inr hc.2.1⟩
      · rw [if_neg hc] at hm
        exact ⟨t, List.mem_cons_self t rest, by rw [hm], Or.inl hm⟩
    · obtain ⟨s, hs, h1, h2⟩ := ih (i + 1) t' hm
      exact ⟨s, List.mem_cons_of_mem t hs, h1, h2⟩

theorem colonAfterWs_nil : colonAfterWs [] = false := rfl

/-! ### Claim C2: tokenizer round-trip -/

/-- Claim C2: for every line (a string containing no newline), the token
texts of `tokenizeLine`, concatenated in order, reproduce the line
exactly. -/
theorem tokenizeLine_roundTrip (l : List Char) (hnl : '\n' ∉ l) :
    textConcat (tokenizeLine l) = l := by
  unfold tokenizeLine
  rw [markKeysFrom_textConcat]
  unfold rawTokens
  rw [scanAux_textConcat]
  simp

/-- Witness for C2 at a concrete line. -/
theorem tokenizeLine_roundTrip_witness :
    '\n' ∉ String.toList " \"key\" : [1, true, null]" ∧
      textConcat (tokenizeLine (String.toList " \"key\" : [1, true, null]")) =
        String.toList " \"key\" : [1, true, null]" :=
  ⟨by decide, tokenizeLine_roundTrip (String.toList " \"key\" : [1, true, null]") (by decide)⟩

/-! ### Claim C8: unterminated quotes -/

/-- Claim C8 is refuted as stated: on the line `"true` (an unterminated
quote followed by `true`), the tokenizer does not turn the whole
unterminated portion into plain text — the quote becomes plain but `true`
still matches as a `boolean` token. -/
theorem unterminatedQuote_counterexample :
    tokenizeLine ('"' :: String.toList "true") =
      [⟨.plain, ['"']⟩, ⟨.boolean, String.toList "true"⟩] ∧
      TokType.boolean ≠ TokType.plain := ⟨by decide, by decide⟩

/-- Claim C8 (amended): an unterminated quote never becomes part of a
`string` (or `key`) token — every `string`/`key` token emitted by
`tokenizeLine` is a fully terminated quoted string; the unmatched quote
itself lands in a `plain` token, though later characters may still match
other token classes. -/
theorem stringKey_tokens_terminated (l : List Char) (t : Token)
    (hmem : t ∈ tokenizeLine l) (hty : t.type = .string ∨ t.type = .key) :
    isQuotedString t.text = true := by
  unfold tokenizeLine at hmem
  obtain ⟨s, hs, htext, hcase⟩ := markKeysFrom_mem _ _ _ _ hmem
  have hstring : s.type = .string := by
    rcases hcase with h' | h'
    · rcases hty with h2 | h2
      · rw [h'] at h2; exact h2
      · rw [h'] at h2
        exact absurd h2 (scanAux_ne_key _ _ _ _ s hs)
    · exact h'
  rw [htext]
  exact scanAux_string_quoted _ _ _ _ s hs hstring

/-- Witness for the amended C8 at a concrete line. -/
theorem stringKey_tokens_terminated_witness :
    (⟨TokType.string, String.toList "\"ok\""⟩ : Token) ∈
        tokenizeLine (String.toList "\"ok\"") ∧
      isQuotedString (String.toList "\"ok\"") = true :=
  ⟨by decide,
    stringKey_tokens_terminated (String.toList "\"ok\"")
      ⟨TokType.string, String.toList "\"ok\""⟩ (by decide) (Or.inl rfl)⟩

/-! ### Claim C9: key reclassification -/

/-- Claim C9: a token of `tokenizeLine` has type `key` exactly when the
underlying raw token matched as a string and the look-ahead over
whitespace-only plain tokens finds a `:` punctuation token on the same
line; and on the line `"a": 1` the tokens are
`[key("a"), punctuation(:), plain( ), number(1)]`. -/
theorem key_iff_colon_lookahead :
    (∀ (l : List Char) (i : Nat) (t : Token),
        (tokenizeLine l).get? i = some t →
        (t.type = .key ↔ ∃ s : Token, (rawTokens l).get? i = some s ∧
          s.type = .string ∧ colonAfterWs ((rawTokens l).drop (i + 1)) = true)) ∧
      tokenizeLine (String.toList "\"a\": 1") =
        [⟨.key, String.toList "\"a\""⟩, ⟨.punctuation, [':']⟩,
         ⟨.plain, [' ']⟩, ⟨.number, ['1']⟩] := by
  constructor
  · intro l i t hget
    unfold tokenizeLine at hget
    rw [markKeysFrom_get? (rawTokens l) (rawTokens l) 0 i] at hget
    cases hraw : (rawTokens l).get? i with
    | none => rw [hraw] at hget; simp at hget
    | some s =>
      rw [hraw] at hget
      simp only [Nat.zero_add, Option.map_some'] at hget
      have ht : (if i + 1 < (rawTokens l).length ∧ s.type = .string ∧
          colonAfterWs ((rawTokens l).drop (i + 1)) = true
          then (⟨.key, s.text⟩ : Token) else s) = t := by
        injection hget
      by_cases hc : i + 1 < (rawTokens l).length ∧ s.type = .string ∧
          colonAfterWs ((rawTokens l).drop (i + 1)) = true
      · rw [if_pos hc] at ht
        constructor
        · intro _
          exact ⟨s, rfl, hc.2.1, hc.2.2⟩
        · intro _
          rw [← ht]
      · rw [if_neg hc] at ht
        constructor
        · intro hkey
          rw [← ht] at hkey
          exact absurd hkey (scanAux_ne_key _ _ _ _ s (List.get?_mem hraw))
        · rintro ⟨s', hs', hstr, hcol⟩
          injection hs' with hs'
          subst hs'
          exfalso
          apply hc
          refine ⟨?_, hstr, hcol⟩
          by_contra hlen
          have : (rawTokens l).drop (i + 1) = [] :=
            List.drop_eq_nil_of_le (by omega)
          rw [this, colonAfterWs_nil] at hcol
          exact Bool.noConfusion hcol
  · decide

/-- Witness for C9: its universal part applied at the key token of the
line `"a": 1`. -/
theorem key_iff_colon_lookahead_witness :
    (tokenizeLine (String.toList "\"a\": 1")).get? 0 =
        some ⟨.key, String.toList "\"a\""⟩ ∧
      ((⟨.key, String.toList "\"a\""⟩ : Token).type = .key ↔
        ∃ s : Token, (rawTokens (String.toList "\"a\": 1")).get? 0 = some s ∧
          s.type = .string ∧
          colonAfterWs ((rawTokens (String.toList "\"a\": 1")).drop 1) = true) :=
  ⟨by decide,
    key_iff_colon_lookahead.1 (String.toList "\"a\": 1") 0
      ⟨.key, String.toList "\"a\""⟩ (by decide)⟩

/-! ### Line differ lemmas -/

theorem commonStartLen_le : ∀ (old new : List (List Char)),
    commonStartLen old new ≤ old.length ∧ commonStartLen old new ≤ new.length := by
  intro old
  induction old with
  | nil =>
    intro new
    rw [commonStartLen.eq_def]
    cases new <;> simp
  | cons a as ih =>
    intro new
    cases new with
    | nil => rw [commonStartLen.eq_def]; simp
    | cons b bs =>
      rw [commonStartLen]
      by_cases hab : a = b
      · rw [if_pos hab]
        have := ih bs
        simp only [List.length_cons]
        omega
      · rw [if_neg hab]; simp

theorem commonStartLen_spec : ∀ (old new : List (List Char)) (i : Nat),
    i < commonStartLen old new → old.get? i = new.get? i := by
  intro old
  induction old with
  | nil =>
    intro new i h
    rw [commonStartLen.eq_def] at h
    cases new <;> simp at h
  | cons a as ih =>
    intro new i h
    cases new with
    | nil => rw [commonStartLen.eq_def] at h; simp at h
    | cons b bs =>
      rw [commonStartLen] at h
      by_cases hab : a = b
      · rw [if_pos hab] at h
        cases i with
        | zero => simp [hab]
        | succ i =>
          simp only [List.get?_cons_succ]
          exact ih bs i (by omega)
      · rw [if_neg hab] at h; omega

theorem commonStartLen_full : ∀ (old new : List (List Char)),
    commonStartLen old new = old.length → commonStartLen old new = new.length →
    old = new := by
  intro old
  induction old with
  | nil =>
    intro new h1 h2
    cases new with
    | nil => rfl
    | cons b bs =>
      rw [commonStartLen.eq_def] at h2
      simp at h2
  | cons a as ih =>
    intro new h1 h2
    cases new with
    | nil =>
      rw [commonStartLen.eq_def] at h1
      simp at h1
    | cons b bs =>
      rw [commonStartLen] at h1 h2
      by_cases hab : a = b
      · rw [if_pos hab] at h1 h2
        simp only [List.length_cons] at h1 h2
        rw [hab, ih bs (by omega) (by omega)]
      · rw [if_neg hab] at h1
        simp at h1

/-- The backward walk of `findChangedRange` keeps the suffixes it has
passed equal: if the suffixes above the current positions agree, they
agree above the final positions as well, and the positions stay in
bounds. -/
theorem suffixWalk_drop : ∀ (old new : List (List Char)) (start fuel eo en : Nat),
    eo ≤ old.length → en ≤ new.length → old.drop eo = new.drop en →
    old.drop (suffixWalk old new start fuel eo en).1 =
        new.drop (suffixWalk old new start fuel eo en).2 ∧
      (suffixWalk old new start fuel eo en).1 ≤ old.length ∧
      (suffixWalk old new start fuel eo en).2 ≤ new.length := by
  intro old new start fuel
  induction fuel with
  | zero =>
    intro eo en h1 h2 h3
    rw [suffixWalk]
    exact ⟨h3, h1, h2⟩
  | succ fuel ih =>
    intro eo en h1 h2 h3
    rw [suffixWalk]
    by_cases hc : start + 1 ≤ eo ∧ start + 1 ≤ en ∧
        old.get? (eo - 1) = new.get? (en - 1)
    · rw [if_pos hc]
      obtain ⟨he1, he2, hg⟩ := hc
      have heo : eo - 1 < old.length := by omega
      have hen : en - 1 < new.length := by omega
      apply ih
      · omega
      · omega
      · rw [List.drop_eq_getElem_cons heo, List.drop_eq_getElem_cons hen]
        have heq1 : eo - 1 + 1 = eo := by omega
        have heq2 : en - 1 + 1 = en := by omega
        rw [heq1, heq2, h3]
        have h5 : (old[eo - 1]? : Option (List Char)) = new[en - 1]? := by
          rw [← List.get?_eq_getElem?, ← List.get?_eq_getElem?]
          exact hg
        rw [List.getElem?_eq_getElem heo, List.getElem?_eq_getElem hen] at h5
        injection h5 with h5
        rw [h5]
    · rw [if_neg hc]
      exact ⟨h3, h1, h2⟩

/-- The backward walk decrements both ends together. -/
theorem suffixWalk_sum : ∀ (old new : List (List Char)) (start fuel eo en : Nat),
    (suffixWalk old new start fuel eo en).1 + en =
      (suffixWalk old new start fuel eo en).2 + eo := by
  intro old new start fuel
  induction fuel with
  | zero => intro eo en; rw [suffixWalk]; exact Nat.add_comm eo en
  | succ fuel ih =>
    intro eo en
    rw [suffixWalk]
    by_cases hc : start + 1 ≤ eo ∧ start + 1 ≤ en ∧
        old.get? (eo - 1) = new.get? (en - 1)
    · rw [if_pos hc]
      have := ih (eo - 1) (en - 1)
      omega
    · rw [if_neg hc]
      exact Nat.add_comm eo en

/-! ### Claim C6: the regions outside the changed range are identical -/

/-- Claim C6: when `findChangedRange` returns `{start, endOld, endNew}`,
the lines before `start` agree at equal indices, and the suffix of the old
lines after `endOld` equals the suffix of the new lines after `endNew`. -/
theorem findChangedRange_frame (old new : List (List Char)) (cr : ChangeRange)
    (h : findChangedRange old new = some cr) :
    (∀ i : Nat, i < cr.start → old.get? i = new.get? i) ∧
      old.drop (cr.endOld + 1).toNat = new.drop (cr.endNew + 1).toNat := by
  unfold findChangedRange at h
  split at h
  · exact absurd h (by simp)
  · simp only [Option.some.injEq] at h
    subst h
    refine ⟨fun i hi => commonStartLen_spec old new i hi, ?_⟩
    have hw := suffixWalk_drop old new (commonStartLen old new) old.length
      old.length new.length (le_refl _) (le_refl _) (by simp)
    have h1 : (((suffixWalk old new (commonStartLen old new) old.length
        old.length new.length).1 : Int) - 1 + 1).toNat =
        (suffixWalk old new (commonStartLen old new) old.length
          old.length new.length).1 := by omega
    have h2 : (((suffixWalk old new (commonStartLen old new) old.length
        old.length new.length).2 : Int) - 1 + 1).toNat =
        (suffixWalk old new (commonStartLen old new) old.length
          old.length new.length).2 := by omega
    simp only [h1, h2]
    exact hw.1

/-- Witness for C6 at the spec's edit scenario. -/
theorem findChangedRange_frame_witness :
    findChangedRange [['a'], ['b'], ['c']] [['a'], ['x'], ['c']] =
        some ⟨1, 1, 1⟩ ∧
      ((∀ i : Nat, i < (1 : Nat) → ([['a'], ['b'], ['c']] : List (List Char)).get? i =
          ([['a'], ['x'], ['c']] : List (List Char)).get? i) ∧
        ([['a'], ['b'], ['c']] : List (List Char)).drop (((1 : Int) + 1).toNat) =
          ([['a'], ['x'], ['c']] : List (List Char)).drop (((1 : Int) + 1).toNat)) :=
  ⟨by decide,
    findChangedRange_frame [['a'], ['b'], ['c']] [['a'], ['x'], ['c']] ⟨1, 1, 1⟩
      (by decide)⟩

/-! ### Claim C5: diff minimality outside the changed range -/

/-- Claim C5 is refuted as stated: on `old = [x, a, b]`,
`new = [x, q, a, b]` the diff is `{start 1, endOld 0, endNew 1}`, and
index `2` lies strictly outside `[start, max(endOld, endNew)] = [1, 1]`
and in range of both sequences, yet `old[2] = b ≠ a = new[2]`. -/
theorem diffMinimality_counterexample :
    findChangedRange [['x'], ['a'], ['b']] [['x'], ['q'], ['a'], ['b']] =
        some ⟨1, 0, 1⟩ ∧
      max (0 : Int) 1 < 2 ∧
      2 < ([['x'], ['a'], ['b']] : List (List Char)).length ∧
      2 < ([['x'], ['q'], ['a'], ['b']] : List (List Char)).length ∧
      ([['x'], ['a'], ['b']] : List (List Char)).get? 2 ≠
        ([['x'], ['q'], ['a'], ['b']] : List (List Char)).get? 2 :=
  ⟨by decide, by decide, by decide, by decide, by decide⟩

/-- Claim C5 (amended): when the two sequences have equal length, all line
indices strictly outside `[start, max(endOld, endNew)]` are pairwise equal
between old and new. -/
theorem diffMinimality_equalLength (old new : List (List Char))
    (cr : ChangeRange) (h : findChangedRange old new = some cr)
    (hlen : old.length = new.length) (i : Nat) (hi : i < old.length)
    (hout : i < cr.start ∨ max cr.endOld cr.endNew < (i : Int)) :
    old.get? i = new.get? i := by
  unfold findChangedRange at h
  split at h
  · exact absurd h (by simp)
  · simp only [Option.some.injEq] at h
    subst h
    rcases hout with hout | hout
    · exact commonStartLen_spec old new i hout
    · have hw := suffixWalk_drop old new (commonStartLen old new) old.length
        old.length new.length (le_refl _) (le_refl _) (by simp)
      have hs := suffixWalk_sum old new (commonStartLen old new) old.length
        old.length new.length
      have heq : (suffixWalk old new (commonStartLen old new) old.length
          old.length new.length).1 =
          (suffixWalk old new (commonStartLen old new) old.length
            old.length new.length).2 := by omega
      simp only [heq, max_self] at hout
      have hge : (suffixWalk old new (commonStartLen old new) old.length
          old.length new.length).2 ≤ i := by omega
      have hold : old.get? i = (old.drop (suffixWalk old new
          (commonStartLen old new) old.length old.length new.length).1).get?
          (i - (suffixWalk old new (commonStartLen old new) old.length
            old.length new.length).2) := by
        rw [List.get?_drop]
        congr 1
        omega
      rw [hold, hw.1, List.get?_drop]
      congr 1
      omega

/-- Witness for the amended C5 at an equal-length edit. -/
theorem diffMinimality_equalLength_witness :
    findChangedRange [['a'], ['b'], ['c']] [['a'], ['x'], ['c']] =
        some ⟨1, 1, 1⟩ ∧
      ([['a'], ['b'], ['c']] : List (List Char)).length =
        ([['a'], ['x'], ['c']] : List (List Char)).length ∧
      ([['a'], ['b'], ['c']] : List (List Char)).get? 2 =
        ([['a'], ['x'], ['c']] : List (List Char)).get? 2 :=
  ⟨by decide, by decide,
    diffMinimality_equalLength [['a'], ['b'], ['c']] [['a'], ['x'], ['c']]
      ⟨1, 1, 1⟩ (by decide) (by decide) 2 (by decide)
      (Or.inr (by decide))⟩

/-! ### Token cache lemmas -/

theorem retokenizeRange_get?_lt (tokens newLines : List (List Char))
    (start : Nat) (endNew : Int) (i : Nat) (hi : i < start)
    (hlen : start ≤ tokens.length) :
    (retokenizeRange tokens newLines start endNew).get? i = tokens.get? i := by
  unfold retokenizeRange spliceJS
  rw [List.append_assoc]
  have hl : i < (tokens.take start).length := by
    rw [List.length_take]; omega
  rw [List.get?_append hl]
  rw [List.get?_take hi]

theorem retokenizeRange_length_ge (tokens newLines : List (List Char))
    (start : Nat) (endNew : Int) (hlen : start ≤ tokens.length) :
    start ≤ (retokenizeRange tokens newLines start endNew).length := by
  unfold retokenizeRange spliceJS
  simp only [List.length_append, List.length_take]
  omega

/-! ### Claim C7: the cache length tracks the line count -/

/-- Claim C7: for a state satisfying the cache invariant
(`len(tokens) = len(lines)`), a completed `syncFromInput` cycle leaves the
cache length equal to the number of lines of the new text (split on
newline) — whether the edit keeps, grows, or shrinks the line count, and
also on the no-change sentinel. -/
theorem syncTokens_length (oldTokens oldLines : List (List Char))
    (newText : List Char) (hinv : oldTokens.length = oldLines.length) :
    (syncTokens oldTokens oldLines (splitNL newText)).length =
      (splitNL newText).length := by
  cases hfc : findChangedRange oldLines (splitNL newText) with
  | none =>
    simp only [syncTokens, hfc]
    unfold findChangedRange at hfc
    split at hfc
    · next hif =>
      have heq : oldLines = splitNL newText :=
        commonStartLen_full _ _ hif.1 hif.2
      rw [hinv, heq]
    · exact absurd hfc (by simp)
  | some cr =>
    simp only [syncTokens, hfc]
    by_cases hlt : (splitNL newText).length <
        (retokenizeRange oldTokens (splitNL newText) cr.start cr.endNew).length
    · rw [if_pos hlt]
      rw [List.length_take]
      omega
    · rw [if_neg hlt]
      rw [List.length_append, List.length_map, List.length_drop]
      omega

/-- Witness for C7 at a concrete state and edit. -/
theorem syncTokens_length_witness :
    ([['z'], ['z']] : List (List Char)).length =
        ([['a'], ['b']] : List (List Char)).length ∧
      (syncTokens [['z'], ['z']] [['a'], ['b']]
          (splitNL (String.toList "a\nb\nc"))).length =
        (splitNL (String.toList "a\nb\nc")).length :=
  ⟨by decide,
    syncTokens_length [['z'], ['z']] [['a'], ['b']]
      (String.toList "a\nb\nc") (by decide)⟩

/-! ### Claim C10: entries before the changed range are untouched -/

/-- Claim C10: when `findChangedRange` returns `{start, ..}`, the update
performed by `syncFromInput` leaves every cache entry at an index strictly
below `start` unchanged (for a state satisfying the cache invariant). -/
theorem syncTokens_frame (oldTokens oldLines newLines : List (List Char))
    (cr : ChangeRange) (hfc : findChangedRange oldLines newLines = some cr)
    (hinv : oldTokens.length = oldLines.length) (i : Nat) (hi : i < cr.start) :
    (syncTokens oldTokens oldLines newLines).get? i = oldTokens.get? i := by
  have hstart : cr.start = commonStartLen oldLines newLines := by
    unfold findChangedRange at hfc
    split at hfc
    · exact absurd hfc (by simp)
    · simp only [Option.some.injEq] at hfc
      rw [← hfc]
  have hle := commonStartLen_le oldLines newLines
  have hso : cr.start ≤ oldTokens.length := by rw [hinv, hstart]; exact hle.1
  have hsn : cr.start ≤ newLines.length := by rw [hstart]; exact hle.2
  have ht1 : (retokenizeRange oldTokens newLines cr.start cr.endNew).get? i =
      oldTokens.get? i :=
    retokenizeRange_get?_lt oldTokens newLines cr.start cr.endNew i hi hso
  have ht1len : cr.start ≤
      (retokenizeRange oldTokens newLines cr.start cr.endNew).length :=
    retokenizeRange_length_ge oldTokens newLines cr.start cr.endNew hso
  simp only [syncTokens, hfc]
  by_cases hlt : newLines.length <
      (retokenizeRange oldTokens newLines cr.start cr.endNew).length
  · rw [if_pos hlt]
    rw [List.get?_take (by omega)]
    exact ht1
  · rw [if_neg hlt]
    have hil : i < (retokenizeRange oldTokens newLines cr.start cr.endNew).length := by
      omega
    rw [List.get?_append hil]
    exact ht1

/-- Witness for C10 at a concrete state and edit. -/
theorem syncTokens_frame_witness :
    findChangedRange [['a'], ['b'], ['c']] [['a'], ['x'], ['c']] =
        some ⟨1, 1, 1⟩ ∧
      ([['p'], ['q'], ['r']] : List (List Char)).length =
        ([['a'], ['b'], ['c']] : List (List Char)).length ∧
      (syncTokens [['p'], ['q'], ['r']] [['a'], ['b'], ['c']]
          [['a'], ['x'], ['c']]).get? 0 =
        ([['p'], ['q'], ['r']] : List (List Char)).get? 0 :=
  ⟨by decide, by decide,
    syncTokens_frame [['p'], ['q'], ['r']] [['a'], ['b'], ['c']]
      [['a'], ['x'], ['c']] ⟨1, 1, 1⟩ (by decide) (by decide) 0 (by decide)⟩

/-! ### Claim C1: the incremental cache versus from-scratch tokenization -/

/-- Claim C1 fails on the code: starting from the coherent cache for
`old = [x, a, b]` and editing to `new = [x, q, a, b]`
(text `"x\nq\na\nb"`), the diff is `{start 1, endOld 0, endNew 1}`;
`retokenizeRange` then splices with delete count
`endNew - start + 1 = 1` (an index into the NEW sequence) instead of
`endOld - start + 1 = 0`, so the surviving cache tail is misaligned: the
updated cache holds the tokens of `b` at index 2 where a from-scratch
tokenization of the new document holds the tokens of `a`. -/
theorem cacheUpdate_divergence :
    syncTokens ([['x'], ['a'], ['b']].map lineHtml) [['x'], ['a'], ['b']]
        [['x'], ['q'], ['a'], ['b']] ≠
      [['x'], ['q'], ['a'], ['b']].map lineHtml ∧
    (syncTokens ([['x'], ['a'], ['b']].map lineHtml) [['x'], ['a'], ['b']]
        [['x'], ['q'], ['a'], ['b']]).get? 2 = some (lineHtml ['b']) ∧
    ([['x'], ['q'], ['a'], ['b']].map lineHtml).get? 2 = some (lineHtml ['a']) ∧
    lineHtml ['b'] ≠ lineHtml ['a'] :=
  ⟨by decide, by decide, by decide, by decide⟩

/-! ### Claim C3: viewport coverage -/

/-- Claim C3: for non-negative scroll offset and viewport height (with a
positive line height; the render buffer is the code's constant 8), every
line index `i < totalLines` whose pixel span
`[i*h, (i+1)*h)` intersects the window `[s, s+v)` satisfies
`first ≤ i ≤ last` for the range returned by `computeVisibleRange`. -/
theorem computeVisibleRange_covers (h s v : ℚ) (N i : Nat)
    (hh : 0 < h) (hs : 0 ≤ s) (hv : 0 ≤ v) (hiN : i < N)
    (hlow : (i : ℚ) * h < s + v) (hhigh : s < ((i : ℚ) + 1) * h) :
    (computeVisibleRange h s v N).first ≤ (i : Int) ∧
      (i : Int) ≤ (computeVisibleRange h s v N).last := by
  have hfloor : ⌊s / h⌋ ≤ (i : Int) := by
    have h1 : ⌊s / h⌋ < (i : Int) + 1 := by
      rw [Int.floor_lt]
      rw [div_lt_iff hh]
      push_cast
      linarith
    omega
  have hkey : (i : Int) < ⌊s / h⌋ + ⌈v / h⌉ + 1 := by
    have h1 : (i : ℚ) < s / h + v / h := by
      rw [div_add_div_same, lt_div_iff hh]
      linarith
    have h2 : s / h < (⌊s / h⌋ : ℚ) + 1 := Int.lt_floor_add_one _
    have h3 : v / h ≤ (⌈v / h⌉ : ℚ) := Int.le_ceil _
    have h4 : (i : ℚ) < (⌊s / h⌋ : ℚ) + (⌈v / h⌉ : ℚ) + 1 := by linarith
    exact_mod_cast h4
  simp only [computeVisibleRange, RENDER_BUFFER]
  have hm : ⌊s / h⌋ - 8 ≤ max 0 (⌊s / h⌋ - 8) := le_max_right _ _
  have hm0 : (0 : Int) ≤ max 0 (⌊s / h⌋ - 8) := le_max_left _ _
  have hiN' : (i : Int) < (N : Int) := by exact_mod_cast hiN
  constructor
  · apply max_le
    · exact_mod_cast Nat.zero_le i
    · omega
  · apply le_min
    · omega
    · push_cast
      omega

/-- Witness for C3 at a concrete configuration (line height 28, scroll 0,
viewport 28 px, 2 lines, line 0 visible). -/
theorem computeVisibleRange_covers_witness :
    (0 : ℚ) < 28 ∧ (0 : ℚ) ≤ 0 ∧ (0 : ℚ) ≤ 28 ∧ 0 < 2 ∧
      ((0 : ℕ) : ℚ) * 28 < 0 + 28 ∧ (0 : ℚ) < (((0 : ℕ) : ℚ) + 1) * 28 ∧
      ((computeVisibleRange 28 0 28 2).first ≤ ((0 : ℕ) : Int) ∧
        ((0 : ℕ) : Int) ≤ (computeVisibleRange 28 0 28 2).last) :=
  ⟨by norm_num, le_refl 0, by norm_num, by norm_num, by norm_num, by norm_num,
    computeVisibleRange_covers 28 0 28 2 0 (by norm_num) (le_refl 0)
      (by norm_num) (by norm_num) (by norm_num) (by norm_num)⟩

/-! ### Claim C4: when the range degenerates -/

/-- Claim C4 is refuted as stated: with the code's fallback line height 28,
a scroll offset of 2800 px against a 1-line document and viewport height 0
(both non-negative), `computeVisibleRange` returns `first = 92 > 0 = last`
even though `totalLines = 1 ≥ 1`. -/
theorem visibleRange_degenerate_counterexample :
    1 ≤ (1 : Nat) ∧ (0 : ℚ) ≤ 2800 ∧ (0 : ℚ) ≤ 0 ∧
      (computeVisibleRange 28 2800 0 1).last <
        (computeVisibleRange 28 2800 0 1).first := by
  refine ⟨le_refl 1, by norm_num, le_refl 0, ?_⟩
  norm_num [computeVisibleRange, RENDER_BUFFER]

/-- Claim C4 (amended): with the additional hypothesis that the scroll
offset does not exceed the document height (`s ≤ totalLines * h`, which
browser scroll clamping guarantees for the code's scroll host), the range
satisfies `first ≤ last` whenever `totalLines ≥ 1`. -/
theorem visibleRange_nondegenerate (h s v : ℚ) (N : Nat)
    (hh : 0 < h) (hs : 0 ≤ s) (hv : 0 ≤ v) (hN : 1 ≤ N)
    (hclamp : s ≤ (N : ℚ) * h) :
    (computeVisibleRange h s v N).first ≤ (computeVisibleRange h s v N).last := by
  have hfloor : ⌊s / h⌋ ≤ (N : Int) := by
    have h1 : s / h ≤ ((N : Int) : ℚ) := by
      rw [div_le_iff hh]
      push_cast
      linarith
    calc ⌊s / h⌋ ≤ ⌊((N : Int) : ℚ)⌋ := Int.floor_le_floor h1
      _ = (N : Int) := Int.floor_intCast _
  have hceil : (0 : Int) ≤ ⌈v / h⌉ := Int.ceil_nonneg (div_nonneg hv hh.le)
  have hN' : (1 : Int) ≤ (N : Int) := by exact_mod_cast hN
  simp only [computeVisibleRange, RENDER_BUFFER]
  have hm0 : (0 : Int) ≤ max 0 (⌊s / h⌋ - 8) := le_max_left _ _
  have hmN : max 0 (⌊s / h⌋ - 8) ≤ (N : Int) - 1 := by
    apply max_le <;> omega
  apply le_min hmN
  push_cast
  omega

/-- Witness for the amended C4 at a concrete configuration. -/
theorem visibleRange_nondegenerate_witness :
    (0 : ℚ) < 28 ∧ (0 : ℚ) ≤ 140 ∧ (0 : ℚ) ≤ 50 ∧ 1 ≤ (5 : ℕ) ∧
      (140 : ℚ) ≤ ((5 : ℕ) : ℚ) * 28 ∧
      (computeVisibleRange 28 140 50 5).first ≤
        (computeVisibleRange 28 140 50 5).last :=
  ⟨by norm_num, by norm_num, by norm_num, by norm_num, by norm_num,
    visibleRange_nondegenerate 28 140 50 5 (by norm_num) (by norm_num)
      (by norm_num) (by norm_num) (by norm_num)⟩

end Editor
